import Mathlib

set_option maxHeartbeats 1000000

/- Verification of the retrieval core of the In_a_nutshell course-assistant
repository: the text chunker (`CourseIndexer._create_text_chunks` in
src/course_indexer.py), the embedding cache and similarity ranker
(`GeminiRAGAssistant` in src/gemini_rag_assistant.py) and the vector store
(`VectorStoreManager` in src/vector_store_manager.py), embedded shallowly:
Python strings become `List Char`, numpy float arrays become lists of real
numbers, the SQLite catalog becomes lists of rows, and the file system
becomes explicit association lists. -/

namespace Nutshell

/-! ## Chunker: `CourseIndexer._create_text_chunks` (course_indexer.py 281-319) -/

/-- One record appended by `_create_text_chunks` (course_indexer.py 312-315):
the whitespace-stripped window text and a page number (always 0 in the
source). -/
structure PyChunk where
  text : List Char
  page : Nat
  deriving DecidableEq

/-- Clamp one Python slice endpoint to `[0, n]`: a negative endpoint counts
from the end of the string, and endpoints are clamped to the length
(Python slicing semantics). -/
def sliceIndex (n : Nat) (i : Int) : Nat :=
  if i < 0 then ((n : Int) + i).toNat else min i.toNat n

/-- Python string slice `s[a:b]`, as used by `content[start:end]`. -/
def pySlice (s : List Char) (a b : Int) : List Char :=
  (s.take (sliceIndex s.length b)).drop (sliceIndex s.length a)

/-- Python `str.rfind(ch)`: index of the last occurrence of `ch`, `-1` when
`ch` does not occur. -/
def pyRfind (s : List Char) (ch : Char) : Int :=
  match s.reverse.findIdx? (fun c => c == ch) with
  | some k => (s.length : Int) - 1 - k
  | none => -1

/-- Python `str.strip()`: drop whitespace from both ends. -/
def pyStrip (s : List Char) : List Char :=
  ((s.dropWhile Char.isWhitespace).reverse.dropWhile Char.isWhitespace).reverse

/-- One iteration of the `while start < len(content)` loop of
`_create_text_chunks` (course_indexer.py 301-317): returns the window text
that gets appended and the next value of `start`.  The source guards the
sentence-boundary retraction by `end < len(content)` and then
`last_period > chunk_size * 0.5`; since `last_period` is an integer and
`chunk_size * 0.5` is exact, the float test is the integer test
`2 * last_period > chunk_size`. -/
def chunkIter (content : List Char) (chunk_size overlap : Nat) (start : Int) :
    List Char × Int :=
  let t0 := pySlice content start (start + chunk_size)
  if start + (chunk_size : Int) < (content.length : Int) ∧
      2 * pyRfind t0 '.' > (chunk_size : Int) then
    (pySlice content start (start + pyRfind t0 '.' + 1),
      start + pyRfind t0 '.' + 1 - overlap)
  else (t0, start + (chunk_size : Int) - overlap)

/-- Fuel-indexed unfolding of the `while` loop of `_create_text_chunks`;
`none` means the fuel ran out before the loop finished, so
`createChunksAux … fuel 0 = some l` for some fuel exactly when the Python
loop terminates with chunk list `l`. -/
def createChunksAux (content : List Char) (chunk_size overlap : Nat) :
    Nat → Int → Option (List PyChunk)
  | 0, start => if start < (content.length : Int) then none else some []
  | fuel + 1, start =>
    if start < (content.length : Int) then
      match createChunksAux content chunk_size overlap fuel
          (chunkIter content chunk_size overlap start).2 with
      | none => none
      | some rest =>
          some ({ text := pyStrip (chunkIter content chunk_size overlap start).1,
                  page := 0 } :: rest)
    else some []

/-- `CourseIndexer._create_text_chunks` (course_indexer.py 281-319).  The
fuel `content.length + 1` suffices whenever the loop cursor strictly
increases at every step (proved below for `2 * overlap ≤ chunk_size`);
`none` reports that the loop did not finish within that budget. -/
def create_text_chunks (content : List Char) (chunk_size overlap : Nat) :
    Option (List PyChunk) :=
  createChunksAux content chunk_size overlap (content.length + 1) 0

/-- Under `1 ≤ chunk_size` and `2 * overlap ≤ chunk_size` every loop
iteration advances the cursor by at least one character. -/
lemma chunkIter_progress (content : List Char) (cs ov : Nat) (start : Int)
    (hcs : 1 ≤ cs) (hov : 2 * ov ≤ cs) :
    start + 1 ≤ (chunkIter content cs ov start).2 := by
  unfold chunkIter
  dsimp only
  split
  · rename_i h
    dsimp only
    omega
  · dsimp only
    omega

/-- Once the cursor has passed the end of the text, the loop stops at once
(whatever the fuel). -/
lemma createChunksAux_of_le (content : List Char) (cs ov : Nat) (start : Int)
    (h : ¬ start < (content.length : Int)) :
    ∀ fuel, createChunksAux content cs ov fuel start = some [] := by
  intro fuel
  cases fuel with
  | zero => simp [createChunksAux, h]
  | succ n => simp [createChunksAux, h]

lemma createChunksAux_total (content : List Char) (cs ov : Nat)
    (hcs : 1 ≤ cs) (hov : 2 * ov ≤ cs) :
    ∀ (fuel : Nat) (start : Int), 0 ≤ start →
      (content.length : Int) ≤ start + fuel →
      (createChunksAux content cs ov fuel start).isSome := by
  intro fuel
  induction fuel with
  | zero =>
    intro start h0 hle
    rw [createChunksAux, if_neg (by omega)]
    rfl
  | succ n ih =>
    intro start h0 hle
    by_cases h : start < (content.length : Int)
    · rw [createChunksAux, if_pos h]
      have hprog := chunkIter_progress content cs ov start hcs hov
      have hrec := ih (chunkIter content cs ov start).2 (by omega) (by omega)
      cases hsome : createChunksAux content cs ov n (chunkIter content cs ov start).2 with
      | none => rw [hsome] at hrec; exact absurd hrec (by simp)
      | some rest => rfl
    · rw [createChunksAux, if_neg h]
      rfl

/-- C5 (amended): with `1 ≤ chunk_size` and `2 * overlap ≤ chunk_size` (in
particular for the source defaults 1000/200), `_create_text_chunks`
terminates, produces zero chunks on empty input and at least one chunk on
non-empty input.  The restriction `2 * overlap ≤ chunk_size` is forced:
`overlap < chunk_size` alone does not ensure termination (see the
counterexample). -/
theorem create_text_chunks_total (content : List Char) (cs ov : Nat)
    (hcs : 1 ≤ cs) (hov : 2 * ov ≤ cs) :
    (create_text_chunks content cs ov).isSome ∧
    (content = [] → create_text_chunks content cs ov = some []) ∧
    (∀ l, create_text_chunks content cs ov = some l → content ≠ [] → l ≠ []) := by
  refine ⟨createChunksAux_total content cs ov hcs hov _ 0 le_rfl (by omega), ?_, ?_⟩
  · intro h
    subst h
    rfl
  · intro l hl hne
    have hlen : 0 < content.length := List.length_pos.mpr hne
    rw [create_text_chunks, createChunksAux, if_pos (by omega)] at hl
    cases hsome : createChunksAux content cs ov content.length
        (chunkIter content cs ov 0).2 with
    | none => rw [hsome] at hl; cases hl
    | some rest =>
      rw [hsome] at hl
      cases hl
      simp

/-- Witness for C5 at `content = "abc"`, `chunk_size = 4`, `overlap = 2`. -/
theorem create_text_chunks_total_witness :
    (create_text_chunks "abc".data 4 2).isSome ∧
    ("abc".data = [] → create_text_chunks "abc".data 4 2 = some []) ∧
    (∀ l, create_text_chunks "abc".data 4 2 = some l → "abc".data ≠ [] → l ≠ []) :=
  create_text_chunks_total "abc".data 4 2 (by decide) (by decide)

/-- C5 counterexample: with `chunk_size = 6` and `overlap = 5 < 6` the loop
of `_create_text_chunks` never terminates on `"aaaa.abbbb"`: the window
`"aaaa.a"` retracts to the period at index 4 (`2 * 4 > 6`), so the next
cursor is `4 + 1 - 5 = 0` again, whatever the fuel. -/
theorem create_text_chunks_nonterminating :
    5 < 6 ∧ ∀ fuel : Nat, createChunksAux "aaaa.abbbb".data 6 5 fuel 0 = none := by
  refine ⟨by decide, ?_⟩
  intro fuel
  induction fuel with
  | zero => decide
  | succ n ih =>
    have h2 : (chunkIter "aaaa.abbbb".data 6 5 0).2 = 0 := by decide
    rw [createChunksAux, if_pos (by decide), h2, ih]

/-- C6 (amended): a non-empty text of length at most `chunk_size − overlap`
produces exactly one chunk, the whole (stripped) text.  The bound
`chunk_size` of the claim must shrink to `chunk_size − overlap`: after the
single full window the cursor restarts at `chunk_size − overlap`, so any
longer text gets a second chunk (see the counterexample). -/
theorem create_text_chunks_single (content : List Char) (cs ov : Nat)
    (hne : content ≠ []) (hlen : content.length + ov ≤ cs) :
    create_text_chunks content cs ov = some [{ text := pyStrip content, page := 0 }] := by
  have hpos : 0 < content.length := List.length_pos.mpr hne
  have hiter : chunkIter content cs ov 0 = (content, (cs : Int) - ov) := by
    rw [chunkIter]
    have hslice : pySlice content 0 (0 + (cs : Int)) = content := by
      rw [pySlice, sliceIndex, sliceIndex]
      rw [if_neg (by omega), if_neg (by omega)]
      have h1 : min ((0 : Int)).toNat content.length = 0 := by simp
      have h2 : min ((0 + (cs : Int))).toNat content.length = content.length := by
        simp
        omega
      rw [h1, h2, List.take_length, List.drop_zero]
    rw [if_neg]
    · rw [hslice]
      norm_num
    · rw [hslice]
      intro hcon
      omega
  rw [create_text_chunks, createChunksAux, if_pos (by omega), hiter]
  have hstop := createChunksAux_of_le content cs ov ((cs : Int) - ov)
    (by omega) content.length
  rw [hstop]

/-- Witness for C6 at `content = "ab"`, `chunk_size = 4`, `overlap = 2`. -/
theorem create_text_chunks_single_witness :
    create_text_chunks "ab".data 4 2 = some [{ text := pyStrip "ab".data, page := 0 }] :=
  create_text_chunks_single "ab".data 4 2 (by decide) (by decide)

/-- C6 counterexample: `"abc"` has length `3 ≤ 4 = chunk_size`, yet with
`overlap = 2` the call produces two chunks (`"abc"` and `"c"`), because the
cursor restarts at `chunk_size − overlap = 2 < 3`. -/
theorem create_text_chunks_two_chunks_small_input :
    ("abc".data.length ≤ 4 ∧ "abc".data ≠ []) ∧
    create_text_chunks "abc".data 4 2 =
      some [{ text := "abc".data, page := 0 }, { text := "c".data, page := 0 }] := by
  exact ⟨by decide, by decide⟩

/-- Every character of a Python slice comes from the sliced string. -/
lemma pySlice_subset (s : List Char) (a b : Int) :
    ∀ c ∈ pySlice s a b, c ∈ s := by
  intro c hc
  exact List.mem_of_mem_take (List.mem_of_mem_drop hc)

/-- A slice `s[a:b]` with `0 ≤ a < len s` and `a + 1 ≤ b` is non-empty. -/
lemma pySlice_ne_nil (s : List Char) (a b : Int)
    (h0 : 0 ≤ a) (ha : a < (s.length : Int)) (hb : a + 1 ≤ b) :
    pySlice s a b ≠ [] := by
  apply List.ne_nil_of_length_pos
  rw [pySlice, List.length_drop, List.length_take, sliceIndex, sliceIndex]
  rw [if_neg (by omega), if_neg (by omega)]
  omega

/-- Stripping a string with no whitespace characters leaves it unchanged. -/
lemma pyStrip_eq_self (l : List Char) (h : ∀ c ∈ l, c.isWhitespace = false) :
    pyStrip l = l := by
  have hdrop : ∀ (m : List Char), (∀ c ∈ m, c.isWhitespace = false) →
      m.dropWhile Char.isWhitespace = m := by
    intro m hm
    cases m with
    | nil => rfl
    | cons x xs =>
      rw [List.dropWhile_cons, if_neg]
      simp [hm x (by simp)]
  rw [pyStrip, hdrop _ h, hdrop, List.reverse_reverse]
  intro c hc
  exact h c (List.mem_reverse.mp hc)

/-- The window text appended in one loop iteration is non-empty when the
cursor is still inside the text. -/
lemma chunkIter_fst_ne_nil (content : List Char) (cs ov : Nat) (start : Int)
    (hcs : 1 ≤ cs) (h0 : 0 ≤ start) (hlt : start < (content.length : Int)) :
    (chunkIter content cs ov start).1 ≠ [] := by
  rw [chunkIter]
  split
  · rename_i h
    exact pySlice_ne_nil content start _ h0 hlt (by omega)
  · exact pySlice_ne_nil content start _ h0 hlt (by omega)

lemma chunkIter_fst_subset (content : List Char) (cs ov : Nat) (start : Int) :
    ∀ c ∈ (chunkIter content cs ov start).1, c ∈ content := by
  rw [chunkIter]
  split
  · exact pySlice_subset content _ _
  · exact pySlice_subset content _ _

lemma createChunksAux_text_ne_nil (content : List Char) (cs ov : Nat)
    (hcs : 1 ≤ cs) (hov : 2 * ov ≤ cs)
    (hws : ∀ c ∈ content, c.isWhitespace = false) :
    ∀ (fuel : Nat) (start : Int), 0 ≤ start →
      ∀ l, createChunksAux content cs ov fuel start = some l →
        ∀ ch ∈ l, ch.text ≠ [] := by
  intro fuel
  induction fuel with
  | zero =>
    intro start h0 l hl ch hch
    rw [createChunksAux] at hl
    split at hl
    · cases hl
    · cases hl
      cases hch
  | succ n ih =>
    intro start h0 l hl ch hch
    rw [createChunksAux] at hl
    split at hl
    · rename_i hstart
      cases hsome : createChunksAux content cs ov n (chunkIter content cs ov start).2 with
      | none => rw [hsome] at hl; cases hl
      | some rest =>
        rw [hsome] at hl
        cases hl
        rcases List.mem_cons.mp hch with hhead | htail
        · subst hhead
          have hsub : ∀ c ∈ (chunkIter content cs ov start).1, c.isWhitespace = false :=
            fun c hc => hws c (chunkIter_fst_subset content cs ov start c hc)
          dsimp only
          rw [pyStrip_eq_self _ hsub]
          exact chunkIter_fst_ne_nil content cs ov start hcs h0 hstart
        · have hprog := chunkIter_progress content cs ov start hcs hov
          exact ih (chunkIter content cs ov start).2 (by omega) rest hsome ch htail
    · cases hl
      cases hch

/-- C7 (amended): every chunk produced from an input that contains no
whitespace character has non-empty text (with the termination-ensuring
parameters `1 ≤ chunk_size`, `2 * overlap ≤ chunk_size`).  The claim's
quantification over all non-empty inputs fails: a window consisting
entirely of whitespace is stripped to the empty string and still appended
(see the counterexample). -/
theorem create_text_chunks_nonempty_of_no_whitespace (content : List Char)
    (cs ov : Nat) (hcs : 1 ≤ cs) (hov : 2 * ov ≤ cs)
    (hws : ∀ c ∈ content, c.isWhitespace = false) :
    ∀ l, create_text_chunks content cs ov = some l → ∀ ch ∈ l, ch.text ≠ [] :=
  fun l hl =>
    createChunksAux_text_ne_nil content cs ov hcs hov hws (content.length + 1) 0
      le_rfl l hl

/-- Witness for C7 at `content = "abcde"`, `chunk_size = 4`, `overlap = 2`:
the first produced chunk `"abcd"` is non-empty. -/
theorem create_text_chunks_nonempty_witness :
    ({ text := "abcd".data, page := 0 } : PyChunk).text ≠ [] :=
  create_text_chunks_nonempty_of_no_whitespace "abcde".data 4 2 (by decide)
    (by decide) (by decide)
    [{ text := "abcd".data, page := 0 }, { text := "cde".data, page := 0 },
      { text := "e".data, page := 0 }] (by decide)
    { text := "abcd".data, page := 0 } (by decide)

/-- C7 counterexample: the non-empty input `"ab      "` (two letters, six
spaces) with `chunk_size = 4`, `overlap = 2` produces four chunks, three of
which have empty (stripped) text. -/
theorem create_text_chunks_empty_chunk :
    "ab      ".data ≠ [] ∧
    create_text_chunks "ab      ".data 4 2 =
      some [{ text := "ab".data, page := 0 }, { text := [], page := 0 },
            { text := [], page := 0 }, { text := [], page := 0 }] := by
  exact ⟨by decide, by decide⟩

/-! ## Catalog rows and denormalized chunk metadata -/

/-- One row of the `documents` table as read by the retrieval core
(gemini_rag_assistant.py 77-82). -/
structure DocRow where
  doc_id : String
  extracted_title : String
  level : String
  category : String
  file_path : String
  deriving DecidableEq

/-- One row of the `document_chunks` table. -/
structure ChunkRow where
  chunk_id : String
  doc_id : String
  content : String
  deriving DecidableEq

/-- One entry of `self.chunk_data` (gemini_rag_assistant.py 95-104): the
chunk text plus the denormalized document metadata. -/
structure ChunkMeta where
  chunk_id : String
  content : String
  doc_id : String
  title : String
  level : String
  category : String
  file_path : String
  deriving DecidableEq, Inhabited

/-- The SQLite catalog the assistant reads (documents and their chunks). -/
structure Catalog where
  documents : List DocRow
  chunks : List ChunkRow
  deriving DecidableEq

/-! ## Embedding cache: `_load_embeddings_cache` / `_create_embeddings_cache`
(gemini_rag_assistant.py 51-113) -/

/-- The inner join issued by `_create_embeddings_cache`
(gemini_rag_assistant.py 77-82): each chunk row is paired with its document
row.  `doc_id` is the documents table's primary key, so `find?` picks the
unique match; a chunk whose document row is missing is dropped by the
inner join. -/
def joinRows (chunks : List ChunkRow) (docs : List DocRow) : List ChunkMeta :=
  chunks.filterMap fun c =>
    (docs.find? fun d => d.doc_id == c.doc_id).map fun d =>
      { chunk_id := c.chunk_id, content := c.content, doc_id := c.doc_id,
        title := d.extracted_title, level := d.level, category := d.category,
        file_path := d.file_path }

/-- `GeminiRAGAssistant._create_embeddings_cache`
(gemini_rag_assistant.py 72-113).  `embed` stands for the external batch
call `self.embedding_model.encode(texts)`.  With no joined rows the method
returns early and both cache fields stay `None` (modeled as `none`);
otherwise `chunk_data` becomes the joined rows and `chunk_embeddings` the
encoded texts. -/
def create_embeddings_cache (embed : List String → List (List ℝ))
    (cat : Catalog) : Option (List (List ℝ) × List ChunkMeta) :=
  let rows := joinRows cat.chunks cat.documents
  if rows = [] then none
  else some (embed (rows.map fun r => r.content), rows)

/-- `GeminiRAGAssistant._load_embeddings_cache`
(gemini_rag_assistant.py 51-70): returns the in-memory cache and the
persisted cache after the call.  When `embeddings_cache.npz` exists it is
deserialized wholesale without any comparison against the catalog;
otherwise the cache is built from the catalog and, when non-empty,
persisted. -/
def load_embeddings_cache (persisted : Option (List (List ℝ) × List ChunkMeta))
    (embed : List String → List (List ℝ)) (cat : Catalog) :
    Option (List (List ℝ) × List ChunkMeta) ×
      Option (List (List ℝ) × List ChunkMeta) :=
  match persisted with
  | some c => (some c, some c)
  | none =>
    match create_embeddings_cache embed cat with
    | some c => (some c, some c)
    | none => (none, none)

/-- A `filterMap` whose function succeeds on every element keeps the
length. -/
lemma length_filterMap_of_isSome {α β : Type} (f : α → Option β) (l : List α)
    (h : ∀ a ∈ l, (f a).isSome) : (l.filterMap f).length = l.length := by
  induction l with
  | nil => rfl
  | cons x xs ih =>
    rw [List.filterMap_cons]
    cases hx : f x with
    | none => have hs := h x (by simp); rw [hx] at hs; cases hs
    | some y =>
      simp only [List.length_cons]
      rw [ih fun a ha => h a (List.mem_cons_of_mem _ ha)]

/-- With referential integrity every chunk row survives the join. -/
lemma joinRows_length (chunks : List ChunkRow) (docs : List DocRow)
    (hfk : ∀ c ∈ chunks, ∃ d ∈ docs, d.doc_id = c.doc_id) :
    (joinRows chunks docs).length = chunks.length := by
  apply length_filterMap_of_isSome
  intro c hc
  rcases hfk c hc with ⟨d, hd, hdc⟩
  have hfind : (docs.find? fun d => d.doc_id == c.doc_id).isSome := by
    rw [List.find?_isSome]
    exact ⟨d, hd, by simp [hdc]⟩
  rcases Option.isSome_iff_exists.mp hfind with ⟨x, hx⟩
  rw [hx]
  rfl

/-- C8 (amended): on the fresh-build path (no persisted cache), with
referential integrity of the catalog and an embedding model returning one
vector per text, `_load_embeddings_cache` produces a cache whose embedding
count equals its metadata count and the catalog's chunk count; with a
non-empty catalog a cache is in fact produced.  The load path had to be
dropped from the claim: a persisted cache is deserialized without any
comparison against the catalog, so its counts match the catalog only if
the cache is not stale (see the counterexample). -/
theorem load_embeddings_cache_fresh_bijection
    (embed : List String → List (List ℝ))
    (hembed : ∀ ts, (embed ts).length = ts.length) (cat : Catalog)
    (hfk : ∀ c ∈ cat.chunks, ∃ d ∈ cat.documents, d.doc_id = c.doc_id) :
    (cat.chunks ≠ [] → ((load_embeddings_cache none embed cat).1).isSome) ∧
    (∀ emb md, (load_embeddings_cache none embed cat).1 = some (emb, md) →
      emb.length = md.length ∧ md.length = cat.chunks.length) := by
  have hrows : (joinRows cat.chunks cat.documents).length = cat.chunks.length :=
    joinRows_length cat.chunks cat.documents hfk
  constructor
  · intro hne
    have hrne : joinRows cat.chunks cat.documents ≠ [] := by
      apply List.ne_nil_of_length_pos
      rw [hrows]
      exact List.length_pos.mpr hne
    simp only [load_embeddings_cache, create_embeddings_cache, if_neg hrne]
    rfl
  · intro emb md hsome
    simp only [load_embeddings_cache, create_embeddings_cache] at hsome
    by_cases hr : joinRows cat.chunks cat.documents = []
    · rw [if_pos hr] at hsome
      cases hsome
    · rw [if_neg hr] at hsome
      have h1 : emb = embed ((joinRows cat.chunks cat.documents).map fun r => r.content) := by
        cases hsome
        rfl
      have h2 : md = joinRows cat.chunks cat.documents := by
        cases hsome
        rfl
      rw [h1, h2, hembed, List.length_map, hrows]
      exact ⟨rfl, rfl⟩

/-- A degenerate stand-in for the external embedding model: every text is
encoded as the one-dimensional vector `[1]`. -/
def embedOne : List String → List (List ℝ) := fun ts => ts.map fun _ => [1]

def docA : DocRow :=
  { doc_id := "d1", extracted_title := "Intro", level := "M1",
    category := "Stats", file_path := "p1" }

def chunkRowA : ChunkRow :=
  { chunk_id := "k1", doc_id := "d1", content := "linear regression" }

def chunkRowB : ChunkRow :=
  { chunk_id := "k2", doc_id := "d1", content := "gradient descent" }

def catA : Catalog := { documents := [docA], chunks := [chunkRowA] }

def cat2 : Catalog := { documents := [docA], chunks := [chunkRowA, chunkRowB] }

/-- The denormalized metadata of `chunkRowA` joined with `docA`. -/
def metaA : ChunkMeta :=
  { chunk_id := "k1", content := "linear regression", doc_id := "d1",
    title := "Intro", level := "M1", category := "Stats", file_path := "p1" }

/-- Witness for C8 on the one-document, one-chunk catalog `catA`. -/
theorem load_embeddings_cache_fresh_bijection_witness :
    (catA.chunks ≠ [] → ((load_embeddings_cache none embedOne catA).1).isSome) ∧
    (∀ emb md, (load_embeddings_cache none embedOne catA).1 = some (emb, md) →
      emb.length = md.length ∧ md.length = catA.chunks.length) :=
  load_embeddings_cache_fresh_bijection embedOne
    (fun ts => by simp [embedOne]) catA
    (by
      intro c hc
      simp only [catA, List.mem_singleton] at hc
      subst hc
      exact ⟨docA, by simp [catA], rfl⟩)

/-- C8 counterexample: when a persisted cache exists, `_load_embeddings_cache`
loads it wholesale; a stale one-record cache served against the two-chunk
catalog `cat2` leaves the in-memory record count different from the
catalog's chunk count. -/
theorem load_embeddings_cache_stale :
    (load_embeddings_cache (some ([[1]], [metaA])) embedOne cat2).1 =
      some ([[1]], [metaA]) ∧
    ([metaA] : List ChunkMeta).length ≠ cat2.chunks.length := by
  exact ⟨rfl, by decide⟩

/-! ## Vector store: `VectorStoreManager` (vector_store_manager.py) -/

/-- State of a `VectorStoreManager` together with its store directory: the
`{name}.npy` files (embedding matrices) and `{name}_metadata.pkl` files
(metadata lists) keyed by save name, plus the in-memory
`embeddings`/`metadata` fields.  A fresh write shadows an older file of
the same name. -/
structure VectorStore where
  npyFiles : List (String × List (List ℝ))
  pklFiles : List (String × List ChunkMeta)
  embeddings : Option (List (List ℝ))
  metadata : List ChunkMeta

/-- `VectorStoreManager.save_embeddings` (vector_store_manager.py 22-47):
writes `{name}.npy` and `{name}_metadata.pkl`. -/
def save_embeddings (s : VectorStore) (embeddings : List (List ℝ))
    (metadata : List ChunkMeta) (name : String) : VectorStore :=
  { s with npyFiles := (name, embeddings) :: s.npyFiles,
           pklFiles := (name, metadata) :: s.pklFiles }

/-- `VectorStoreManager.load_embeddings` (vector_store_manager.py 49-81):
returns the updated manager state together with the returned pair.  A
missing `.npy` file returns `(None, [])` and leaves the state unchanged; a
missing metadata file yields `[]`. -/
def load_embeddings (s : VectorStore) (name : String) :
    VectorStore × (Option (List (List ℝ)) × List ChunkMeta) :=
  match s.npyFiles.find? fun p => p.1 == name with
  | none => (s, (none, []))
  | some p =>
    let md := ((s.pklFiles.find? fun q => q.1 == name).map fun q => q.2).getD []
    ({ s with embeddings := some p.2, metadata := md }, (some p.2, md))

/-- C10: `save_embeddings` followed by `load_embeddings` on the same name
returns exactly the saved pair `(E, M)` and sets the in-memory
`embeddings`/`metadata` fields to `E` and `M`. -/
theorem save_load_roundtrip (s : VectorStore) (E : List (List ℝ))
    (M : List ChunkMeta) (name : String) :
    load_embeddings (save_embeddings s E M name) name =
      ({ save_embeddings s E M name with embeddings := some E, metadata := M },
        (some E, M)) := by
  have h1 : (((name, E) :: s.npyFiles).find? fun p => p.1 == name) = some (name, E) :=
    List.find?_cons_of_pos _ (by simp)
  have h2 : (((name, M) :: s.pklFiles).find? fun q => q.1 == name) = some (name, M) :=
    List.find?_cons_of_pos _ (by simp)
  simp only [load_embeddings, save_embeddings, h1, h2]
  rfl

/-! ## Similarity index and ranker: `find_relevant_chunks`
(gemini_rag_assistant.py 115-195) and `_format_sources` (313-337) -/

/-- Zip-wise dot product of two real vectors (`np.dot`; numpy raises on a
length mismatch, here the longer vector is truncated). -/
def dot : List ℝ → List ℝ → ℝ
  | x :: xs, y :: ys => x * y + dot xs ys
  | _, _ => 0

/-- Squared L2 norm; `np.linalg.norm v` is `Real.sqrt (normSq v)`. -/
def normSq (v : List ℝ) : ℝ := dot v v

@[simp] lemma dot_nil_left (q : List ℝ) : dot [] q = 0 := rfl

@[simp] lemma dot_nil_right (v : List ℝ) : dot v [] = 0 := by
  cases v <;> rfl

@[simp] lemma dot_cons (x y : ℝ) (xs ys : List ℝ) :
    dot (x :: xs) (y :: ys) = x * y + dot xs ys := rfl

/-- `GeminiRAGAssistant._generate_embedding` (gemini_rag_assistant.py
115-121).  Modelled from the spec: the external call
`embedding_model.encode(text, normalize_embeddings=True)` scales the raw
model vector to unit L2 norm, a zero-norm raw vector staying zero; `raw`
stands for the un-normalized model output on the query text, which the
source never sees directly. -/
noncomputable def generate_embedding (raw : List ℝ) : List ℝ :=
  if normSq raw = 0 then raw else raw.map fun x => x / Real.sqrt (normSq raw)

/-- Row normalization of the cached chunk matrix (gemini_rag_assistant.py
147-149): divide each row by its L2 norm, a zero norm being replaced by 1
(`np.where(chunk_norms == 0, 1, chunk_norms)`). -/
noncomputable def normalizeRow (v : List ℝ) : List ℝ :=
  v.map fun x =>
    x / (if Real.sqrt (normSq v) = 0 then 1 else Real.sqrt (normSq v))

/-- `np.nan_to_num(·, nan=0.0, posinf=0.0, neginf=0.0)` of line 155: real
numbers have no NaN or infinity, so on this model it is the identity. -/
def nan_to_num (x : ℝ) : ℝ := x

/-- The cosine-similarity vector of lines 147-155: dot product of every
normalized cached row with the (normalized) query embedding. -/
noncomputable def similaritiesOf (es : List (List ℝ)) (q : List ℝ) : List ℝ :=
  es.map fun c => nan_to_num (dot (normalizeRow c) q)

/-- Stable insertion into an index list sorted by `key` ascending. -/
noncomputable def insertIdx (key : Nat → ℝ) (i : Nat) : List Nat → List Nat
  | [] => [i]
  | j :: js => if key i ≤ key j then i :: j :: js else j :: insertIdx key i js

noncomputable def argsortAux (key : Nat → ℝ) : List Nat → List Nat
  | [] => []
  | i :: is => insertIdx key i (argsortAux key is)

/-- `np.argsort` on the length-`n` array with entries `key 0 … key (n-1)`:
the indices sorted by value ascending.  The source calls `np.argsort` with
its default kind (introsort), which is documented unstable, so the order
of equal values is not guaranteed by the program; this model fixes one
deterministic outcome (a stable insertion sort), which agrees with numpy
wherever the array is below numpy's small-array insertion-sort cutoff —
in particular on the two-element concrete evaluations below.  Theorems
about the program rely only on the value-sortedness and permutation
properties, which hold of every sort kind; no theorem asserts a tie order
of the program beyond those concrete small-array evaluations. -/
noncomputable def argsort (key : Nat → ℝ) (n : Nat) : List Nat :=
  argsortAux key (List.range n)

/-- Python tail slice `l[-k:]` as in line 177: for `k = 0` the slice
`[-0:]` is `[0:]`, the whole list. -/
def pyTailSlice {α : Type} (k : Nat) (l : List α) : List α :=
  if k = 0 then l else l.drop (l.length - k)

/-- `top_indices` of line 177: `np.argsort(fs)[-top_k:][::-1]`. -/
noncomputable def selectedIndices (fs : List ℝ) (top_k : Nat) : List Nat :=
  (pyTailSlice top_k (argsort (fun i => fs.getD i 0) fs.length)).reverse

/-- One retrieval result (lines 186-193): a copy of the chunk's
denormalized metadata with the `similarity` key added. -/
structure RagResult where
  meta : ChunkMeta
  similarity : ℝ

/-- The result built for a selected index (lines 186-192). -/
def mkResult (fs : List ℝ) (cd : List ChunkMeta) (idx : Nat) : RagResult :=
  { meta := cd.getD idx default, similarity := fs.getD idx 0 }

/-- The result loop of lines 180-195: walk `top_indices` in order and keep
the entries whose similarity exceeds the relevance threshold 0.2.  (The
`isnan`/`isinf` recheck of lines 189-190 cannot fire on real numbers and
would reset to 0 a value already known to exceed 0.2; it is the identity
here.) -/
noncomputable def rankResults (fs : List ℝ) (cd : List ChunkMeta)
    (top_k : Nat) : List RagResult :=
  (selectedIndices fs top_k).filterMap fun idx =>
    if 0.2 < fs.getD idx 0 then some (mkResult fs cd idx) else none

/-- The similarity vector after the optional level filter of lines
157-174: the entry of every chunk whose level differs from the filter is
forced to the sentinel `-1` (the boolean mask of lines 167-172);
`level=None` — and the Python-falsy empty string — leave the vector
unchanged. -/
noncomputable def pipelineSims (es : List (List ℝ)) (cd : List ChunkMeta)
    (queryRaw : List ℝ) (level : Option String) : List ℝ :=
  let sims := similaritiesOf es (generate_embedding queryRaw)
  match level with
  | none => sims
  | some lv =>
    if lv = "" then sims
    else List.zipWith (fun s c => if c.level = lv then s else (-1 : ℝ)) sims cd

/-- `GeminiRAGAssistant.find_relevant_chunks` (gemini_rag_assistant.py
123-195).  `queryRaw` stands for the external embedding model's raw output
on the query string (normalized by `_generate_embedding`).  An empty cache
(lines 140-141) and a non-empty level filter matching no cached chunk
(lines 158-165) return `[]` at once. -/
noncomputable def find_relevant_chunks (es : List (List ℝ))
    (cd : List ChunkMeta) (queryRaw : List ℝ) (top_k : Nat)
    (level : Option String) : List RagResult :=
  if es = [] then []
  else
    match level with
    | none => rankResults (pipelineSims es cd queryRaw none) cd top_k
    | some lv =>
      if lv = "" then rankResults (pipelineSims es cd queryRaw (some lv)) cd top_k
      else if cd.all fun c => c.level != lv then []
      else rankResults (pipelineSims es cd queryRaw (some lv)) cd top_k

/-- One entry of the source list built by `_format_sources` (lines
326-335). -/
structure SourceEntry where
  doc_id : String
  title : String
  level : String
  category : String
  file_path : String
  similarity : ℝ

/-- The source entry built from one ranked chunk (lines 327-334; the
`isnan`/`isinf` guard of lines 322-324 is the identity on real numbers,
and `float(similarity)` is the identity). -/
def sourceOf (r : RagResult) : SourceEntry :=
  { doc_id := r.meta.doc_id, title := r.meta.title, level := r.meta.level,
    category := r.meta.category, file_path := r.meta.file_path,
    similarity := r.similarity }

/-- The loop of `_format_sources` with its `seen_docs` set (lines
315-336). -/
def formatSourcesAux (seen : List String) : List RagResult → List SourceEntry
  | [] => []
  | c :: cs =>
    if c.meta.doc_id ∈ seen then formatSourcesAux seen cs
    else sourceOf c :: formatSourcesAux (c.meta.doc_id :: seen) cs

/-- `GeminiRAGAssistant._format_sources` (gemini_rag_assistant.py 313-337):
collapse the ranked chunks to at most one source entry per document id,
keeping the first-seen chunk of each document, in rank order. -/
def format_sources (chunks : List RagResult) : List SourceEntry :=
  formatSourcesAux [] chunks

/-! ## Dot-product facts -/

@[simp] lemma normSq_nil : normSq [] = 0 := rfl

@[simp] lemma normSq_cons (x : ℝ) (xs : List ℝ) :
    normSq (x :: xs) = x * x + normSq xs := rfl

lemma normSq_nonneg (v : List ℝ) : 0 ≤ normSq v := by
  induction v with
  | nil => simp
  | cons x xs ih => simp only [normSq_cons]; nlinarith [mul_self_nonneg x]

lemma dot_comm (v w : List ℝ) : dot v w = dot w v := by
  induction v generalizing w with
  | nil => cases w <;> simp
  | cons x xs ih =>
    cases w with
    | nil => simp
    | cons y ys => rw [dot_cons, dot_cons, ih, mul_comm]

lemma dot_map_div (v q : List ℝ) (d : ℝ) :
    dot (v.map fun x => x / d) q = dot v q / d := by
  induction v generalizing q with
  | nil => simp
  | cons x xs ih =>
    cases q with
    | nil => simp
    | cons y ys =>
      rw [List.map_cons, dot_cons, dot_cons, ih, div_mul_eq_mul_div,
        div_add_div_same]

lemma dot_eq_zero_left (v q : List ℝ) (h : normSq v = 0) : dot v q = 0 := by
  induction v generalizing q with
  | nil => simp
  | cons x xs ih =>
    cases q with
    | nil => simp
    | cons y ys =>
      rw [normSq_cons] at h
      have hxs := normSq_nonneg xs
      have hx : x = 0 := by nlinarith [mul_self_nonneg x]
      have hxs0 : normSq xs = 0 := by nlinarith [mul_self_nonneg x]
      rw [dot_cons, hx, ih ys hxs0]
      ring

/-- Cauchy-Schwarz for the list dot product. -/
lemma dot_sq_le (v w : List ℝ) : dot v w ^ 2 ≤ normSq v * normSq w := by
  induction v generalizing w with
  | nil => simp
  | cons x xs ih =>
    cases w with
    | nil => simp
    | cons y ys =>
      have hA := normSq_nonneg xs
      have hB := normSq_nonneg ys
      have hS := ih ys
      rw [dot_cons, normSq_cons, normSq_cons]
      rcases eq_or_lt_of_le hA with hA0 | hApos
      · have hSsq : dot xs ys ^ 2 = 0 := by nlinarith [sq_nonneg (dot xs ys)]
        have hS0 : dot xs ys = 0 := by
          exact pow_eq_zero_iff (two_ne_zero) |>.mp hSsq
        rw [hS0, ← hA0]
        nlinarith [mul_nonneg (mul_self_nonneg x) hB, sq_nonneg (x * y)]
      · nlinarith [sq_nonneg (x * dot xs ys - y * normSq xs),
          mul_nonneg (mul_self_nonneg x) (sub_nonneg.mpr hS),
          mul_nonneg (le_of_lt hApos) (sub_nonneg.mpr hS),
          mul_self_nonneg x, mul_self_nonneg y]

lemma normSq_map_div (v : List ℝ) (d : ℝ) :
    normSq (v.map fun x => x / d) = normSq v / d / d := by
  rw [normSq, dot_map_div, dot_comm, dot_map_div]
  rfl

lemma normSq_normalizeRow_le_one (v : List ℝ) : normSq (normalizeRow v) ≤ 1 := by
  rw [normalizeRow]
  by_cases h : Real.sqrt (normSq v) = 0
  · simp only [if_pos h]
    have hv : normSq v = 0 := by
      have h0 := normSq_nonneg v
      have h1 := Real.sqrt_eq_zero'.mp h
      linarith
    rw [normSq_map_div, hv]
    norm_num
  · simp only [if_neg h]
    have h0 := normSq_nonneg v
    have hpos : 0 < normSq v := by
      rcases eq_or_lt_of_le h0 with h1 | h1
      · exact absurd (by rw [← h1, Real.sqrt_zero]) h
      · exact h1
    rw [normSq_map_div, div_div, Real.mul_self_sqrt h0,
      div_self (ne_of_gt hpos)]

lemma normSq_generate_embedding_le_one (raw : List ℝ) :
    normSq (generate_embedding raw) ≤ 1 := by
  rw [generate_embedding]
  by_cases h : normSq raw = 0
  · rw [if_pos h, h]
    norm_num
  · rw [if_neg h, normSq_map_div]
    have h0 := normSq_nonneg raw
    rw [div_div, Real.mul_self_sqrt h0, div_self h]

lemma mem_similaritiesOf_le_one (es : List (List ℝ)) (q : List ℝ)
    (hq : normSq q ≤ 1) : ∀ s ∈ similaritiesOf es q, s ≤ 1 := by
  intro s hs
  rcases List.mem_map.mp hs with ⟨c, _, rfl⟩
  have h2 : dot (normalizeRow c) q ^ 2 ≤ 1 := by
    have h3 := dot_sq_le (normalizeRow c) q
    have h4 := normSq_normalizeRow_le_one c
    have h5 := normSq_nonneg q
    have h6 := normSq_nonneg (normalizeRow c)
    nlinarith
  rw [nan_to_num]
  nlinarith [h2]

lemma similaritiesOf_zero_row (es : List (List ℝ)) (q : List ℝ) :
    ∀ p ∈ es.zip (similaritiesOf es q), normSq p.1 = 0 → p.2 = 0 := by
  induction es with
  | nil => simp [similaritiesOf]
  | cons c cs ih =>
    intro p hp h0
    rw [similaritiesOf, List.map_cons, List.zip_cons_cons] at hp
    rcases List.mem_cons.mp hp with rfl | hp2
    · show nan_to_num (dot (normalizeRow c) q) = 0
      rw [nan_to_num, normalizeRow, dot_map_div, dot_eq_zero_left c q h0,
        zero_div]
    · exact ih p hp2 h0

lemma mem_zipWith_mask (sims : List ℝ) (cd : List ChunkMeta) (lv : String) :
    ∀ x ∈ List.zipWith (fun s c => if c.level = lv then s else (-1 : ℝ)) sims cd,
      x = -1 ∨ x ∈ sims := by
  induction sims generalizing cd with
  | nil => simp
  | cons s ss ih =>
    cases cd with
    | nil => simp
    | cons c cc =>
      intro x hx
      rw [List.zipWith_cons_cons] at hx
      rcases List.mem_cons.mp hx with rfl | hx2
      · by_cases hc : c.level = lv
        · rw [if_pos hc]
          exact Or.inr (List.mem_cons_self _ _)
        · rw [if_neg hc]
          exact Or.inl rfl
      · rcases ih cc x hx2 with h1 | h1
        · exact Or.inl h1
        · exact Or.inr (List.mem_cons_of_mem _ h1)

/-! ## argsort facts -/

/-- The order `np.argsort` establishes on indices: strictly smaller value,
or equal value and smaller index (stability). -/
def ArgRel (key : Nat → ℝ) (i j : Nat) : Prop :=
  key i < key j ∨ (key i = key j ∧ i < j)

lemma insertIdx_perm (key : Nat → ℝ) (i : Nat) (l : List Nat) :
    List.Perm (insertIdx key i l) (i :: l) := by
  induction l with
  | nil => exact List.Perm.refl _
  | cons j js ih =>
    rw [insertIdx]
    split
    · exact List.Perm.refl _
    · exact ((ih.cons j).trans (List.Perm.swap i j js))

lemma mem_insertIdx (key : Nat → ℝ) (i : Nat) (l : List Nat) (x : Nat) :
    x ∈ insertIdx key i l ↔ x = i ∨ x ∈ l := by
  rw [(insertIdx_perm key i l).mem_iff, List.mem_cons]

lemma pairwise_insertIdx (key : Nat → ℝ) (i : Nat) (l : List Nat)
    (hlt : ∀ j ∈ l, i < j) (hp : l.Pairwise (ArgRel key)) :
    (insertIdx key i l).Pairwise (ArgRel key) := by
  induction l with
  | nil => simp [insertIdx, ArgRel]
  | cons j js ih =>
    cases hp with
    | cons hj hjs =>
      rw [insertIdx]
      split
      · rename_i hle
        refine List.Pairwise.cons ?_ (List.Pairwise.cons hj hjs)
        intro x hx
        rcases List.mem_cons.mp hx with rfl | hx2
        · rcases lt_or_eq_of_le hle with h | h
          · exact Or.inl h
          · exact Or.inr ⟨h, hlt _ (by simp)⟩
        · have hkey : key j ≤ key x := by
            rcases hj x hx2 with h | ⟨h, _⟩
            · exact le_of_lt h
            · exact le_of_eq h
          rcases lt_or_eq_of_le (le_trans hle hkey) with h | h
          · exact Or.inl h
          · exact Or.inr ⟨h, hlt x (by simp [hx2])⟩
      · rename_i hgt
        refine List.Pairwise.cons ?_ (ih (fun x hx => hlt x (by simp [hx])) hjs)
        intro x hx
        rcases (mem_insertIdx key i js x).mp hx with rfl | hx2
        · exact Or.inl (lt_of_not_le hgt)
        · exact hj x hx2

lemma argsortAux_perm (key : Nat → ℝ) (l : List Nat) :
    List.Perm (argsortAux key l) l := by
  induction l with
  | nil => exact List.Perm.refl _
  | cons i is ih =>
    rw [argsortAux]
    exact (insertIdx_perm key i (argsortAux key is)).trans (ih.cons i)

lemma argsortAux_pairwise (key : Nat → ℝ) (l : List Nat)
    (h : l.Pairwise (· < ·)) : (argsortAux key l).Pairwise (ArgRel key) := by
  induction l with
  | nil => simp [argsortAux]
  | cons i is ih =>
    cases h with
    | cons h1 h2 =>
      rw [argsortAux]
      refine pairwise_insertIdx key i _ ?_ (ih h2)
      intro j hj
      exact h1 j ((argsortAux_perm key is).mem_iff.mp hj)

lemma argsort_perm (key : Nat → ℝ) (n : Nat) :
    List.Perm (argsort key n) (List.range n) :=
  argsortAux_perm key (List.range n)

lemma argsort_pairwise (key : Nat → ℝ) (n : Nat) :
    (argsort key n).Pairwise (ArgRel key) :=
  argsortAux_pairwise key (List.range n) (List.pairwise_lt_range n)

lemma argsort_nodup (key : Nat → ℝ) (n : Nat) : (argsort key n).Nodup :=
  ((argsort_perm key n).nodup_iff).mpr (List.nodup_range n)

lemma mem_argsort (key : Nat → ℝ) (n : Nat) (i : Nat) :
    i ∈ argsort key n ↔ i < n := by
  rw [(argsort_perm key n).mem_iff, List.mem_range]

lemma pyTailSlice_sublist {α : Type} (k : Nat) (l : List α) :
    List.Sublist (pyTailSlice k l) l := by
  rw [pyTailSlice]
  split
  · exact List.Sublist.refl _
  · exact List.drop_sublist _ _

lemma selectedIndices_pairwise (fs : List ℝ) (k : Nat) :
    (selectedIndices fs k).Pairwise
      (fun i j => ArgRel (fun i => fs.getD i 0) j i) := by
  rw [selectedIndices, List.pairwise_reverse]
  exact List.Pairwise.sublist (pyTailSlice_sublist k _) (argsort_pairwise _ _)

lemma mem_selectedIndices (fs : List ℝ) (k i : Nat)
    (h : i ∈ selectedIndices fs k) : i < fs.length := by
  rw [selectedIndices, List.mem_reverse] at h
  exact (mem_argsort _ _ i).mp ((pyTailSlice_sublist k _).subset h)

lemma selectedIndices_nodup (fs : List ℝ) (k : Nat) :
    (selectedIndices fs k).Nodup := by
  rw [selectedIndices, List.nodup_reverse]
  exact List.Nodup.sublist (pyTailSlice_sublist k _) (argsort_nodup _ _)

lemma selectedIndices_length_le (fs : List ℝ) (k : Nat) (hk : 1 ≤ k) :
    (selectedIndices fs k).length ≤ k := by
  rw [selectedIndices, List.length_reverse, pyTailSlice, if_neg (by omega),
    List.length_drop]
  omega

/-! ## Ranker facts -/

lemma mem_rankResults {fs : List ℝ} {cd : List ChunkMeta} {k : Nat}
    {r : RagResult} (h : r ∈ rankResults fs cd k) :
    ∃ idx ∈ selectedIndices fs k,
      (0.2 : ℝ) < fs.getD idx 0 ∧ r = mkResult fs cd idx := by
  rw [rankResults] at h
  rcases List.mem_filterMap.mp h with ⟨idx, hidx, heq⟩
  by_cases ht : (0.2 : ℝ) < fs.getD idx 0
  · rw [if_pos ht] at heq
    exact ⟨idx, hidx, ht, (Option.some_injective _ heq).symm⟩
  · rw [if_neg ht] at heq
    cases heq

lemma rankResults_threshold (fs : List ℝ) (cd : List ChunkMeta) (k : Nat) :
    ∀ r ∈ rankResults fs cd k, (0.2 : ℝ) < r.similarity := by
  intro r h
  rcases mem_rankResults h with ⟨idx, _, ht, rfl⟩
  exact ht

lemma rankResults_length_le (fs : List ℝ) (cd : List ChunkMeta) (k : Nat)
    (hk : 1 ≤ k) : (rankResults fs cd k).length ≤ k :=
  le_trans (List.length_filterMap_le _ _) (selectedIndices_length_le fs k hk)

/-- `find_relevant_chunks` either returns `[]` on one of its early paths or
hands the (possibly level-masked) similarity vector to the ranking loop. -/
lemma find_relevant_chunks_cases (es : List (List ℝ)) (cd : List ChunkMeta)
    (raw : List ℝ) (k : Nat) (lv : Option String) :
    find_relevant_chunks es cd raw k lv = [] ∨
    find_relevant_chunks es cd raw k lv =
      rankResults (pipelineSims es cd raw lv) cd k := by
  by_cases hes : es = []
  · left
    rw [find_relevant_chunks.eq_def, if_pos hes]
  · cases lv with
    | none =>
      right
      rw [find_relevant_chunks.eq_def, if_neg hes]
    | some l =>
      rw [find_relevant_chunks.eq_def, if_neg hes]
      by_cases hl : l = ""
      · right
        show (if l = "" then _ else _) = _
        rw [if_pos hl]
      · by_cases hall : cd.all fun c => c.level != l
        · left
          show (if l = "" then _ else _) = _
          rw [if_neg hl, if_pos hall]
        · right
          show (if l = "" then _ else _) = _
          rw [if_neg hl, if_neg hall]

@[simp] lemma mkResult_similarity (fs : List ℝ) (cd : List ChunkMeta)
    (idx : Nat) : (mkResult fs cd idx).similarity = fs.getD idx 0 := rfl

@[simp] lemma mkResult_meta (fs : List ℝ) (cd : List ChunkMeta) (idx : Nat) :
    (mkResult fs cd idx).meta = cd.getD idx default := rfl

@[simp] lemma sourceOf_doc_id (r : RagResult) :
    (sourceOf r).doc_id = r.meta.doc_id := rfl

lemma pipelineSims_none (es : List (List ℝ)) (cd : List ChunkMeta)
    (raw : List ℝ) :
    pipelineSims es cd raw none = similaritiesOf es (generate_embedding raw) := rfl

lemma pipelineSims_some_of_ne (es : List (List ℝ)) (cd : List ChunkMeta)
    (raw : List ℝ) (lv : String) (hlv : lv ≠ "") :
    pipelineSims es cd raw (some lv) =
      List.zipWith (fun s c => if c.level = lv then s else (-1 : ℝ))
        (similaritiesOf es (generate_embedding raw)) cd := by
  rw [pipelineSims.eq_def]
  dsimp only
  rw [if_neg hlv]

lemma pipelineSims_some_empty (es : List (List ℝ)) (cd : List ChunkMeta)
    (raw : List ℝ) :
    pipelineSims es cd raw (some "") =
      similaritiesOf es (generate_embedding raw) := by
  rw [pipelineSims.eq_def]
  dsimp only
  rw [if_pos rfl]

lemma pipelineSims_nil (cd : List ChunkMeta) (raw : List ℝ)
    (lv : Option String) : pipelineSims [] cd raw lv = [] := by
  cases lv with
  | none => rfl
  | some l =>
    rw [pipelineSims.eq_def]
    dsimp only
    split
    · rfl
    · rfl

lemma selectedIndices_nil (k : Nat) : selectedIndices [] k = [] := by
  rw [selectedIndices]
  rw [show argsort (fun i => ([] : List ℝ).getD i 0) ([] : List ℝ).length = []
    from rfl]
  rw [pyTailSlice]
  split <;> simp

lemma mask_all_neg (sims : List ℝ) (cd : List ChunkMeta) (lv : String)
    (hmiss : ∀ c ∈ cd, c.level ≠ lv) :
    ∀ x ∈ List.zipWith (fun s c => if c.level = lv then s else (-1 : ℝ)) sims cd,
      x = -1 := by
  induction sims generalizing cd with
  | nil => simp
  | cons s ss ih =>
    cases cd with
    | nil => simp
    | cons c cc =>
      intro x hx
      rw [List.zipWith_cons_cons] at hx
      rcases List.mem_cons.mp hx with rfl | hx2
      · rw [if_neg (hmiss c (List.mem_cons_self _ _))]
      · exact ih cc (fun d hd => hmiss d (List.mem_cons_of_mem _ hd)) x hx2

/-- Trichotomy for one entry of the level-masked similarity vector: out of
range (default 0), masked to `-1`, or the plain similarity of a chunk whose
level equals the filter. -/
lemma zipWith_mask_getD (sims : List ℝ) (cd : List ChunkMeta) (lv : String)
    (idx : Nat) :
    (List.zipWith (fun s c => if c.level = lv then s else (-1 : ℝ)) sims cd).getD idx 0 = 0 ∨
    (List.zipWith (fun s c => if c.level = lv then s else (-1 : ℝ)) sims cd).getD idx 0 = -1 ∨
    ((List.zipWith (fun s c => if c.level = lv then s else (-1 : ℝ)) sims cd).getD idx 0 =
        sims.getD idx 0 ∧
      (cd.getD idx default).level = lv ∧ idx < cd.length) := by
  induction sims generalizing cd idx with
  | nil => left; simp
  | cons s ss ih =>
    cases cd with
    | nil => left; simp
    | cons c cc =>
      cases idx with
      | zero =>
        rw [List.zipWith_cons_cons]
        by_cases hc : c.level = lv
        · right; right
          exact ⟨by simp [hc], by simpa using hc, by simp⟩
        · right; left
          simp [hc]
      | succ n =>
        rw [List.zipWith_cons_cons]
        rcases ih cc n with h | h | ⟨h1, h2, h3⟩
        · left; simpa using h
        · right; left; simpa using h
        · right; right
          refine ⟨by simpa using h1, by simpa using h2, ?_⟩
          simp only [List.length_cons]
          omega

/-- C1 (amended): for every positive `top_k`, every result of
`find_relevant_chunks` has similarity strictly above the fixed relevance
threshold 0.2, and at most `top_k` results are returned.  Positivity of
`top_k` is forced: for `top_k = 0` the Python slice `argsort(...)[-0:]` is
`[0:]`, the whole array, so every candidate above the threshold is
returned (see the counterexample). -/
theorem find_relevant_chunks_threshold_topk (es : List (List ℝ))
    (cd : List ChunkMeta) (raw : List ℝ) (k : Nat) (lv : Option String)
    (hk : 1 ≤ k) :
    (∀ r ∈ find_relevant_chunks es cd raw k lv, (0.2 : ℝ) < r.similarity) ∧
    (find_relevant_chunks es cd raw k lv).length ≤ k := by
  rcases find_relevant_chunks_cases es cd raw k lv with h | h
  · rw [h]
    exact ⟨by simp, by simp⟩
  · rw [h]
    exact ⟨rankResults_threshold _ _ _, rankResults_length_le _ _ _ hk⟩

/-- Witness for C1 at a one-chunk cache with `top_k = 5`. -/
theorem find_relevant_chunks_threshold_topk_witness :
    (∀ r ∈ find_relevant_chunks [[(1 : ℝ)]] [metaA] [1] 5 none,
      (0.2 : ℝ) < r.similarity) ∧
    (find_relevant_chunks [[(1 : ℝ)]] [metaA] [1] 5 none).length ≤ 5 :=
  find_relevant_chunks_threshold_topk [[(1 : ℝ)]] [metaA] [1] 5 none (by decide)

/-- C2: with a level filter (a non-empty string, the only filters the
Python truthiness test honors), every result's level metadata equals the
filter value, and when no cached chunk has the filter's level the result
is the empty list rather than an error. -/
theorem find_relevant_chunks_level_filter (es : List (List ℝ))
    (cd : List ChunkMeta) (raw : List ℝ) (k : Nat) (lv : String)
    (hlv : lv ≠ "") :
    (∀ r ∈ find_relevant_chunks es cd raw k (some lv), r.meta.level = lv) ∧
    ((∀ c ∈ cd, c.level ≠ lv) →
      find_relevant_chunks es cd raw k (some lv) = []) := by
  constructor
  · intro r hr
    rcases find_relevant_chunks_cases es cd raw k (some lv) with h | h
    · rw [h] at hr
      cases hr
    · rw [h] at hr
      rcases mem_rankResults hr with ⟨idx, hidx, ht, rfl⟩
      rw [pipelineSims_some_of_ne es cd raw lv hlv] at ht
      rcases zipWith_mask_getD (similaritiesOf es (generate_embedding raw))
          cd lv idx with h1 | h1 | ⟨_, h2, _⟩
      · rw [h1] at ht
        norm_num at ht
      · rw [h1] at ht
        norm_num at ht
      · rw [mkResult_meta]
        exact h2
  · intro hmiss
    rw [find_relevant_chunks.eq_def]
    by_cases hes : es = []
    · rw [if_pos hes]
    · rw [if_neg hes]
      show (if lv = "" then _ else _) = _
      rw [if_neg hlv, if_pos]
      rw [List.all_eq_true]
      intro c hc
      simpa using hmiss c hc

/-- Witness for C2 at a one-chunk cache with filter `"M1"`. -/
theorem find_relevant_chunks_level_filter_witness :
    (∀ r ∈ find_relevant_chunks [[(1 : ℝ)]] [metaA] [1] 5 (some "M1"),
      r.meta.level = "M1") ∧
    ((∀ c ∈ [metaA], c.level ≠ "M1") →
      find_relevant_chunks [[(1 : ℝ)]] [metaA] [1] 5 (some "M1") = []) :=
  find_relevant_chunks_level_filter [[(1 : ℝ)]] [metaA] [1] 5 "M1" (by decide)

lemma pairwise_filterMap_of {α β : Type} {f : α → Option β} {R : α → α → Prop}
    {S : β → β → Prop}
    (h : ∀ a b, R a b → ∀ x, f a = some x → ∀ y, f b = some y → S x y) :
    ∀ l : List α, l.Pairwise R → (l.filterMap f).Pairwise S := by
  intro l hl
  induction hl with
  | nil => simp
  | @cons a l' hhead _ ih =>
    rw [List.filterMap_cons]
    cases hfa : f a with
    | none => exact ih
    | some x =>
      refine List.Pairwise.cons ?_ ih
      intro y hy
      rcases List.mem_filterMap.mp hy with ⟨b, hb, hfb⟩
      exact h a b (hhead b hb) x hfa y hfb

lemma rankResults_pairwise (fs : List ℝ) (cd : List ChunkMeta) (k : Nat) :
    (rankResults fs cd k).Pairwise
      (fun a b => b.similarity ≤ a.similarity) := by
  rw [rankResults]
  refine pairwise_filterMap_of ?_ _ (selectedIndices_pairwise fs k)
  intro i j hij x hx y hy
  have hx2 : x = mkResult fs cd i := by
    by_cases ht : (0.2 : ℝ) < fs.getD i 0
    · rw [if_pos ht] at hx
      exact (Option.some_injective _ hx).symm
    · rw [if_neg ht] at hx
      cases hx
  have hy2 : y = mkResult fs cd j := by
    by_cases ht : (0.2 : ℝ) < fs.getD j 0
    · rw [if_pos ht] at hy
      exact (Option.some_injective _ hy).symm
    · rw [if_neg ht] at hy
      cases hy
  subst hx2
  subst hy2
  rw [mkResult_similarity, mkResult_similarity]
  rcases hij with h | ⟨h, _⟩
  · exact le_of_lt h
  · exact le_of_eq h

/-- C3 (amended): the results of `find_relevant_chunks` are ordered by
non-increasing similarity.  This relies only on `argsort` sorting by
value, which holds of every `np.argsort` kind.  The claim's "ties broken
by original insertion order" is refuted by the counterexample; no tie
order holds in its place, because the default `np.argsort` kind is
documented unstable — on arrays in numpy's small-array insertion-sort
regime, such as the counterexample's, ties in fact come back in reverse
insertion order. -/
theorem find_relevant_chunks_ordering (es : List (List ℝ))
    (cd : List ChunkMeta) (raw : List ℝ) (k : Nat) (lv : Option String) :
    (find_relevant_chunks es cd raw k lv).Pairwise
      (fun a b => b.similarity ≤ a.similarity) := by
  rcases find_relevant_chunks_cases es cd raw k lv with h | h
  · rw [h]
    simp
  · rw [h]
    exact rankResults_pairwise _ _ _

/-- C4: every similarity reported on a returned result lies in `[0, 1]`,
and a zero-norm cached vector gets similarity 0 (the zero-norm guard of
line 148 divides it by 1) rather than a division by zero. -/
theorem find_relevant_chunks_similarity_bounds (es : List (List ℝ))
    (cd : List ChunkMeta) (raw : List ℝ) (k : Nat) (lv : Option String) :
    (∀ r ∈ find_relevant_chunks es cd raw k lv,
      0 ≤ r.similarity ∧ r.similarity ≤ 1) ∧
    (∀ p ∈ es.zip (similaritiesOf es (generate_embedding raw)),
      normSq p.1 = 0 → p.2 = 0) := by
  constructor
  · intro r hr
    rcases find_relevant_chunks_cases es cd raw k lv with h | h
    · rw [h] at hr
      cases hr
    · rw [h] at hr
      rcases mem_rankResults hr with ⟨idx, hidx, ht, rfl⟩
      refine ⟨le_of_lt (lt_trans (by norm_num) ht), ?_⟩
      rw [mkResult_similarity]
      have hq := normSq_generate_embedding_le_one raw
      have hle1 : ∀ x ∈ pipelineSims es cd raw lv, x ≤ 1 := by
        intro x hx
        cases lv with
        | none =>
          rw [pipelineSims_none] at hx
          exact mem_similaritiesOf_le_one es _ hq x hx
        | some l =>
          by_cases hl : l = ""
          · rw [hl, pipelineSims_some_empty] at hx
            exact mem_similaritiesOf_le_one es _ hq x hx
          · rw [pipelineSims_some_of_ne es cd raw l hl] at hx
            rcases mem_zipWith_mask _ _ _ x hx with h1 | h1
            · rw [h1]
              norm_num
            · exact mem_similaritiesOf_le_one es _ hq x h1
      by_cases hidx2 : idx < (pipelineSims es cd raw lv).length
      · refine hle1 _ ?_
        rw [List.getD_eq_getElem _ _ hidx2]
        exact List.getElem_mem _
      · rw [List.getD_eq_default _ _ (le_of_not_lt hidx2)]
        norm_num
  · exact similaritiesOf_zero_row es _

lemma two_le_length_filterMap {α β : Type} {l : List α} {f : α → Option β}
    {i j : α} (hnd : l.Nodup) (hi : i ∈ l) (hj : j ∈ l) (hij : i ≠ j)
    (hfi : (f i).isSome) (hfj : (f j).isSome) :
    2 ≤ (l.filterMap f).length := by
  induction l with
  | nil => cases hi
  | cons x xs ih =>
    rw [List.nodup_cons] at hnd
    rw [List.filterMap_cons]
    rcases List.mem_cons.mp hi with rfl | hi2
    · rcases List.mem_cons.mp hj with heq | hj2
      · exact absurd heq.symm hij
      · rcases Option.isSome_iff_exists.mp hfi with ⟨b, hb⟩
        rw [hb]
        rcases Option.isSome_iff_exists.mp hfj with ⟨b2, hb2⟩
        have hmem : b2 ∈ xs.filterMap f := List.mem_filterMap.mpr ⟨j, hj2, hb2⟩
        have hpos := List.length_pos.mpr (List.ne_nil_of_mem hmem)
        simp only [List.length_cons]
        omega
    · rcases List.mem_cons.mp hj with rfl | hj2
      · rcases Option.isSome_iff_exists.mp hfj with ⟨b, hb⟩
        rw [hb]
        rcases Option.isSome_iff_exists.mp hfi with ⟨b2, hb2⟩
        have hmem : b2 ∈ xs.filterMap f := List.mem_filterMap.mpr ⟨i, hi2, hb2⟩
        have hpos := List.length_pos.mpr (List.ne_nil_of_mem hmem)
        simp only [List.length_cons]
        omega
      · have h2 := ih hnd.2 hi2 hj2
        cases hfx : f x with
        | none => exact h2
        | some b =>
          simp only [List.length_cons]
          omega

/-- Whenever some selected index clears the threshold, none of the early
empty-return paths of `find_relevant_chunks` was taken. -/
lemma find_relevant_chunks_eq_rank_of_threshold (es : List (List ℝ))
    (cd : List ChunkMeta) (raw : List ℝ) (k : Nat) (lv : Option String)
    (i : Nat) (hi : i ∈ selectedIndices (pipelineSims es cd raw lv) k)
    (hti : (0.2 : ℝ) < (pipelineSims es cd raw lv).getD i 0) :
    find_relevant_chunks es cd raw k lv =
      rankResults (pipelineSims es cd raw lv) cd k := by
  by_cases hes : es = []
  · exfalso
    rw [hes, pipelineSims_nil, selectedIndices_nil] at hi
    cases hi
  · rw [find_relevant_chunks.eq_def, if_neg hes]
    cases lv with
    | none => rfl
    | some l =>
      by_cases hl : l = ""
      · show (if l = "" then _ else _) = _
        rw [if_pos hl]
      · show (if l = "" then _ else _) = _
        rw [if_neg hl, if_neg]
        intro hall
        have hmiss : ∀ c ∈ cd, c.level ≠ l := by
          intro c hc
          have := List.all_eq_true.mp hall c hc
          simpa using this
        rw [pipelineSims_some_of_ne es cd raw l hl] at hti
        rcases zipWith_mask_getD (similaritiesOf es (generate_embedding raw))
            cd l i with h1 | h1 | ⟨_, h2, h3⟩
        · rw [h1] at hti
          norm_num at hti
        · rw [h1] at hti
          norm_num at hti
        · refine hmiss (cd.getD i default) ?_ h2
          rw [List.getD_eq_getElem _ _ h3]
          exact List.getElem_mem _

lemma formatSourcesAux_nodup (seen : List String) (cs : List RagResult) :
    ((formatSourcesAux seen cs).map fun s => s.doc_id).Nodup ∧
    (∀ d ∈ (formatSourcesAux seen cs).map fun s => s.doc_id, d ∉ seen) := by
  induction cs generalizing seen with
  | nil => exact ⟨List.nodup_nil, by simp [formatSourcesAux]⟩
  | cons c cs ih =>
    rw [formatSourcesAux]
    by_cases h : c.meta.doc_id ∈ seen
    · rw [if_pos h]
      exact ih seen
    · rw [if_neg h]
      have ih2 := ih (c.meta.doc_id :: seen)
      rw [List.map_cons]
      constructor
      · refine List.nodup_cons.mpr ⟨?_, ih2.1⟩
        intro hmem
        exact (ih2.2 _ hmem) (by simp)
      · intro d hd
        rcases List.mem_cons.mp hd with rfl | hd2
        · exact h
        · exact fun hds => (ih2.2 d hd2) (List.mem_cons_of_mem _ hds)

lemma formatSourcesAux_sublist (seen : List String) (cs : List RagResult) :
    List.Sublist ((formatSourcesAux seen cs).map fun s => s.doc_id)
      (cs.map fun r => r.meta.doc_id) := by
  induction cs generalizing seen with
  | nil => simp [formatSourcesAux]
  | cons c cs ih =>
    rw [formatSourcesAux]
    by_cases h : c.meta.doc_id ∈ seen
    · rw [if_pos h, List.map_cons]
      exact (ih seen).cons _
    · rw [if_neg h, List.map_cons, List.map_cons]
      exact (ih _).cons₂ _

lemma formatSourcesAux_first_seen (seen : List String) (cs : List RagResult) :
    ∀ s ∈ formatSourcesAux seen cs, s.doc_id ∉ seen ∧
      ∃ c, cs.find? (fun x => x.meta.doc_id == s.doc_id) = some c ∧
        s = sourceOf c := by
  induction cs generalizing seen with
  | nil => simp [formatSourcesAux]
  | cons c cs ih =>
    intro s hs
    rw [formatSourcesAux] at hs
    by_cases h : c.meta.doc_id ∈ seen
    · rw [if_pos h] at hs
      obtain ⟨hnot, c', hf, hsc⟩ := ih seen s hs
      have hne : c.meta.doc_id ≠ s.doc_id := fun he => hnot (he ▸ h)
      refine ⟨hnot, c', ?_, hsc⟩
      rw [List.find?_cons_of_neg _ (by simpa using hne)]
      exact hf
    · rw [if_neg h] at hs
      rcases List.mem_cons.mp hs with rfl | hs2
      · refine ⟨h, c, ?_, rfl⟩
        rw [List.find?_cons_of_pos _ (by simp)]
      · obtain ⟨hnot, c', hf, hsc⟩ := ih (c.meta.doc_id :: seen) s hs2
        have hne : c.meta.doc_id ≠ s.doc_id :=
          fun he => hnot (he ▸ List.mem_cons_self _ _)
        refine ⟨fun hs3 => hnot (List.mem_cons_of_mem _ hs3), c', ?_, hsc⟩
        rw [List.find?_cons_of_neg _ (by simpa using hne)]
        exact hf

/-- C9: the ranking loop performs no deduplication by source document —
any two distinct selected indices that clear the threshold both yield
results, whatever their document ids — while the caller-side
`_format_sources` keeps at most one entry per document id (its output ids
are duplicate-free), in rank order (its output ids are a sublist of the
input ids), each entry copied from the first-seen chunk of its document. -/
theorem find_relevant_chunks_no_dedup (es : List (List ℝ))
    (cd : List ChunkMeta) (raw : List ℝ) (k : Nat) (lv : Option String)
    (i j : Nat)
    (hi : i ∈ selectedIndices (pipelineSims es cd raw lv) k)
    (hj : j ∈ selectedIndices (pipelineSims es cd raw lv) k)
    (hij : i ≠ j)
    (hti : (0.2 : ℝ) < (pipelineSims es cd raw lv).getD i 0)
    (htj : (0.2 : ℝ) < (pipelineSims es cd raw lv).getD j 0) :
    (mkResult (pipelineSims es cd raw lv) cd i ∈
        find_relevant_chunks es cd raw k lv ∧
      mkResult (pipelineSims es cd raw lv) cd j ∈
        find_relevant_chunks es cd raw k lv ∧
      2 ≤ (find_relevant_chunks es cd raw k lv).length) ∧
    (∀ rs : List RagResult,
      ((format_sources rs).map fun s => s.doc_id).Nodup ∧
      List.Sublist ((format_sources rs).map fun s => s.doc_id)
        (rs.map fun r => r.meta.doc_id) ∧
      (∀ s ∈ format_sources rs, ∃ c,
        rs.find? (fun x => x.meta.doc_id == s.doc_id) = some c ∧
          s = sourceOf c)) := by
  have heq := find_relevant_chunks_eq_rank_of_threshold es cd raw k lv i hi hti
  constructor
  · rw [heq, rankResults]
    refine ⟨?_, ?_, ?_⟩
    · exact List.mem_filterMap.mpr ⟨i, hi, if_pos hti⟩
    · exact List.mem_filterMap.mpr ⟨j, hj, if_pos htj⟩
    · exact two_le_length_filterMap (selectedIndices_nodup _ _) hi hj hij
        (by rw [if_pos hti]; rfl) (by rw [if_pos htj]; rfl)
  · intro rs
    exact ⟨(formatSourcesAux_nodup [] rs).1, formatSourcesAux_sublist [] rs,
      fun s hs => (formatSourcesAux_first_seen [] rs s hs).2⟩

/-! ## Concrete evaluations of the pipeline -/

/-- A second cached chunk, from a different document. -/
def metaB : ChunkMeta :=
  { chunk_id := "k2", content := "linear regression", doc_id := "d2",
    title := "Intro2", level := "M1", category := "Stats", file_path := "p2" }

lemma normSq_one_vec : normSq [(1 : ℝ)] = 1 := by norm_num

lemma generate_embedding_one : generate_embedding [(1 : ℝ)] = [1] := by
  rw [generate_embedding, if_neg (by rw [normSq_one_vec]; norm_num),
    normSq_one_vec, Real.sqrt_one]
  norm_num

lemma normalizeRow_one : normalizeRow [(1 : ℝ)] = [1] := by
  rw [normalizeRow, normSq_one_vec, Real.sqrt_one]
  norm_num

lemma similaritiesOf_one : similaritiesOf [[(1 : ℝ)]] [1] = [1] := by
  rw [similaritiesOf, List.map_cons, List.map_nil, normalizeRow_one]
  norm_num [nan_to_num]

lemma similaritiesOf_two : similaritiesOf [[(1 : ℝ)], [1]] [1] = [1, 1] := by
  rw [similaritiesOf, List.map_cons, List.map_cons, List.map_nil,
    normalizeRow_one]
  norm_num [nan_to_num]

lemma pipeline_one : pipelineSims [[(1 : ℝ)]] [metaA] [1] none = [1] := by
  rw [pipelineSims_none, generate_embedding_one, similaritiesOf_one]

lemma pipeline_two :
    pipelineSims [[(1 : ℝ)], [1]] [metaA, metaB] [1] none = [1, 1] := by
  rw [pipelineSims_none, generate_embedding_one, similaritiesOf_two]

lemma argsort_single (key : Nat → ℝ) : argsort key 1 = [0] := by
  rw [argsort, show List.range 1 = [0] from rfl]
  rfl

lemma argsort_pair : argsort (fun i => ([(1 : ℝ), 1]).getD i 0) 2 = [0, 1] := by
  rw [argsort, show List.range 2 = [0, 1] from rfl]
  simp only [argsortAux, insertIdx]
  norm_num [List.getD_cons_zero, List.getD_cons_succ]

lemma selectedIndices_one_zero : selectedIndices [(1 : ℝ)] 0 = [0] := by
  rw [selectedIndices, show ([(1 : ℝ)]).length = 1 from rfl, argsort_single,
    pyTailSlice, if_pos rfl]
  rfl

lemma selectedIndices_one_five : selectedIndices [(1 : ℝ)] 5 = [0] := by
  rw [selectedIndices, show ([(1 : ℝ)]).length = 1 from rfl, argsort_single,
    pyTailSlice, if_neg (by norm_num)]
  rfl

lemma selectedIndices_pair : selectedIndices [(1 : ℝ), 1] 2 = [1, 0] := by
  rw [selectedIndices, show ([(1 : ℝ), 1]).length = 2 from rfl, argsort_pair,
    pyTailSlice, if_neg (by norm_num)]
  rfl

lemma find_relevant_eval_k0 :
    find_relevant_chunks [[(1 : ℝ)]] [metaA] [1] 0 none =
      [{ meta := metaA, similarity := 1 }] := by
  rw [find_relevant_chunks.eq_def, if_neg (by simp)]
  show rankResults (pipelineSims [[(1 : ℝ)]] [metaA] [1] none) [metaA] 0 = _
  rw [pipeline_one, rankResults, selectedIndices_one_zero]
  norm_num [List.filterMap_cons, List.getD_cons_zero, mkResult]

lemma find_relevant_eval_five :
    find_relevant_chunks [[(1 : ℝ)]] [metaA] [1] 5 none =
      [{ meta := metaA, similarity := 1 }] := by
  rw [find_relevant_chunks.eq_def, if_neg (by simp)]
  show rankResults (pipelineSims [[(1 : ℝ)]] [metaA] [1] none) [metaA] 5 = _
  rw [pipeline_one, rankResults, selectedIndices_one_five]
  norm_num [List.filterMap_cons, List.getD_cons_zero, mkResult]

lemma find_relevant_eval_two :
    find_relevant_chunks [[(1 : ℝ)], [1]] [metaA, metaB] [1] 2 none =
      [{ meta := metaB, similarity := 1 }, { meta := metaA, similarity := 1 }] := by
  rw [find_relevant_chunks.eq_def, if_neg (by simp)]
  show rankResults (pipelineSims [[(1 : ℝ)], [1]] [metaA, metaB] [1] none)
      [metaA, metaB] 2 = _
  rw [pipeline_two, rankResults, selectedIndices_pair]
  norm_num [List.filterMap_cons, List.getD_cons_zero, List.getD_cons_succ,
    mkResult]

/-- C1 counterexample: with `top_k = 0` one result is returned, not at
most 0 — the Python slice `argsort(...)[-0:]` is `[0:]`, the whole
array. -/
theorem find_relevant_chunks_topk_zero :
    (find_relevant_chunks [[(1 : ℝ)]] [metaA] [1] 0 none).length = 1 := by
  rw [find_relevant_eval_k0]
  rfl

/-- C3 counterexample: two cached chunks with equal similarity 1 come back
in reverse insertion order, chunk `"k2"` (cache index 1) before `"k1"`
(cache index 0), refuting the tie-break by original insertion order. -/
theorem find_relevant_chunks_tie_order :
    (find_relevant_chunks [[(1 : ℝ)], [1]] [metaA, metaB] [1] 2 none).map
        (fun r => r.meta.chunk_id) = ["k2", "k1"] ∧
    (find_relevant_chunks [[(1 : ℝ)], [1]] [metaA, metaB] [1] 2 none).map
        (fun r => r.similarity) = [1, 1] := by
  rw [find_relevant_eval_two]
  exact ⟨rfl, rfl⟩

/-- Witness for C4 at a one-chunk cache: the returned result has
similarity within `[0, 1]`. -/
theorem find_relevant_chunks_similarity_bounds_witness :
    0 ≤ (RagResult.mk metaA 1).similarity ∧
      (RagResult.mk metaA 1).similarity ≤ 1 :=
  (find_relevant_chunks_similarity_bounds [[(1 : ℝ)]] [metaA] [1] 5 none).1
    (RagResult.mk metaA 1)
    (by rw [find_relevant_eval_five]; exact List.mem_singleton.mpr rfl)

/-- Witness for C9: two equal-content chunks of distinct documents both
selected and above threshold both appear in the output. -/
theorem find_relevant_chunks_no_dedup_witness :
    (mkResult (pipelineSims [[(1 : ℝ)], [1]] [metaA, metaB] [1] none)
        [metaA, metaB] 0 ∈
        find_relevant_chunks [[(1 : ℝ)], [1]] [metaA, metaB] [1] 2 none ∧
      mkResult (pipelineSims [[(1 : ℝ)], [1]] [metaA, metaB] [1] none)
        [metaA, metaB] 1 ∈
        find_relevant_chunks [[(1 : ℝ)], [1]] [metaA, metaB] [1] 2 none ∧
      2 ≤ (find_relevant_chunks [[(1 : ℝ)], [1]] [metaA, metaB] [1] 2 none).length) ∧
    (∀ rs : List RagResult,
      ((format_sources rs).map fun s => s.doc_id).Nodup ∧
      List.Sublist ((format_sources rs).map fun s => s.doc_id)
        (rs.map fun r => r.meta.doc_id) ∧
      (∀ s ∈ format_sources rs, ∃ c,
        rs.find? (fun x => x.meta.doc_id == s.doc_id) = some c ∧
          s = sourceOf c)) :=
  find_relevant_chunks_no_dedup [[(1 : ℝ)], [1]] [metaA, metaB] [1] 2 none 0 1
    (by rw [pipeline_two, selectedIndices_pair]; simp)
    (by rw [pipeline_two, selectedIndices_pair]; simp)
    (by decide)
    (by rw [pipeline_two]; norm_num [List.getD_cons_zero])
    (by rw [pipeline_two]; norm_num [List.getD_cons_succ, List.getD_cons_zero])

end Nutshell
